import Mathlib

/-!
Verification of the cross-link site quantification engine
(`iCount/mapping/xlsites.py`) against its natural-language specification.

Strings from the Python side are modelled as `List Char`; Python dicts
(which preserve insertion order) are modelled as association lists where
an update of an existing key keeps the entry in place and a fresh key is
appended at the end.  Python float arithmetic on read-length weights is
modelled with exact rationals `ℚ`.  Operations that can raise a Python
exception return `Option` (`none` = exception).
-/

/-- Barcode / read-name strings (`str`) as lists of characters. -/
abbrev Bc := List Char

/-- One mapped-read hit, the tuple
`(middle_pos, end_pos, read_len, num_mapped, second_start)` stored per
barcode by `_processs_bam_file`. -/
structure Hit where
  middle_pos : Int
  end_pos : Int
  read_len : Nat
  num_mapped : Nat
  second_start : Int
deriving DecidableEq, Repr

/-- Python `str.upper` restricted to the characters that occur in read names. -/
def pyUpper (s : Bc) : Bc := s.map Char.toUpper

/-- The per-position condition summed by `_match`:
`c1 == 'N' or c2 == 'N' or c1 == c2` (on already-uppercased characters). -/
def nmatch (c1 c2 : Char) : Bool :=
  decide (c1 = 'N') || decide (c2 = 'N') || decide (c1 = c2)

/-- Embeds `_match(s1, s2, mismatches)` from `xlsites.py`: uppercase both strings,
count the zipped positions satisfying `nmatch`, and test
`max(len(s1), len(s2)) - cn <= mismatches`. -/
def _match (s1 s2 : Bc) (mismatches : Nat) : Bool :=
  let u1 := pyUpper s1
  let u2 := pyUpper s2
  let cn := (u1.zip u2).countP fun p => nmatch p.1 p.2
  decide (max u1.length u2.length - cn ≤ mismatches)

/-- Metrics counters accumulated by `_processs_bam_file`
(`iCount.Metrics`); `bc_cn` is the barcode frequency dict. -/
structure Metrics where
  all_recs : Nat
  notmapped_recs : Nat
  mapped_recs : Nat
  lowmapq_recs : Nat
  used_recs : Nat
  invalidrandomer_recs : Nat
  norandomer_recs : Nat
  bc_cn : List (Bc × Nat)
deriving DecidableEq, Repr

def Metrics.incInvalid (m : Metrics) : Metrics :=
  Metrics.mk m.all_recs m.notmapped_recs m.mapped_recs m.lowmapq_recs
    m.used_recs (m.invalidrandomer_recs + 1) m.norandomer_recs m.bc_cn

def Metrics.incNor (m : Metrics) : Metrics :=
  Metrics.mk m.all_recs m.notmapped_recs m.mapped_recs m.lowmapq_recs
    m.used_recs m.invalidrandomer_recs (m.norandomer_recs + 1) m.bc_cn

/-- Embeds `VALID_NUCLEOTIDES = set('ATCGN')` (upper case only, as in the source). -/
def VALID_NUCLEOTIDES : List Char := ['A', 'T', 'C', 'G', 'N']

/-- The barcode marker `':rbc:'`. -/
def rbcMarker : Bc := [':', 'r', 'b', 'c', ':']

/-- Python substring containment `sep in s`. -/
def containsSeq (sep : Bc) : Bc → Bool
  | [] => sep.isEmpty
  | c :: rest => sep.isPrefixOf (c :: rest) || containsSeq sep rest

/-- The characters after the last occurrence of `sep` in `s`
(`s.rsplit(sep, 1)[1]` when `sep` occurs in `s`; `[]` when it does not). -/
def afterLast (sep : Bc) : Bc → Bc
  | [] => []
  | c :: rest =>
    if containsSeq sep rest then afterLast sep rest
    else if sep.isPrefixOf (c :: rest) then (c :: rest).drop sep.length
    else afterLast sep rest

/-- Embeds `_get_random_barcode(query_name, metrics)` from `xlsites.py`; returns the
extracted barcode together with the updated metrics. -/
def _get_random_barcode (query_name : Bc) (metrics : Metrics) : Bc × Metrics :=
  if containsSeq rbcMarker query_name then
    ((afterLast rbcMarker query_name).takeWhile (fun c => !(decide (c = ':'))), metrics)
  else if query_name.contains ':' then
    let bc := afterLast [':'] query_name
    if bc.any (fun c => !(VALID_NUCLEOTIDES.contains c)) then
      ([], metrics.incInvalid)
    else
      (bc, metrics)
  else
    ([], metrics.incNor)

def m0 : Metrics := Metrics.mk 0 0 0 0 0 0 0 []

/-- The `by_bc` dictionary: barcode → list of hits, in insertion order. -/
abbrev BcMap := List (Bc × List Hit)

/-- Dict lookup `by_bc[k]` (first matching entry). -/
def lookupBc (d : BcMap) (k : Bc) : Option (List Hit) :=
  match d with
  | [] => none
  | e :: rest => if e.1 = k then some e.2 else lookupBc rest k

/-- Dict assignment `by_bc[k] = v`: replace the entry in place, or append. -/
def setBc (d : BcMap) (k : Bc) (v : List Hit) : BcMap :=
  match d with
  | [] => [(k, v)]
  | e :: rest => if e.1 = k then (e.1, v) :: rest else e :: setBc rest k v

/-- Dict removal `by_bc.pop(k)`. -/
def popBc (d : BcMap) (k : Bc) : BcMap :=
  match d with
  | [] => []
  | e :: rest => if e.1 = k then rest else e :: popBc rest k

/-- Embeds `by_bc[bc].extend(by_bc.pop(bc2))`: move `bc2`'s hits onto `bc`. -/
def mergeInto (d : BcMap) (bc bc2 : Bc) : BcMap :=
  setBc (popBc d bc2) bc ((lookupBc d bc).getD [] ++ (lookupBc d bc2).getD [])

/-- Embeds `barcode.count('N')`. -/
def countN (bc : Bc) : Nat := bc.count 'N'

/-- Python string `<` (lexicographic by code point). -/
def bcLt : Bc → Bc → Bool
  | [], [] => false
  | [], _ :: _ => true
  | _ :: _, [] => false
  | c1 :: r1, c2 :: r2 => if c1 = c2 then bcLt r1 r2 else decide (c1 < c2)

/-- Python `<=` on the `(count, barcode)` pairs used for ranking. -/
def keyLe (a b : Nat × Bc) : Bool :=
  decide (a.1 < b.1) || (decide (a.1 = b.1) && (bcLt a.2 b.2 || decide (a.2 = b.2)))

def insertAsc (x : Nat × Bc) : List (Nat × Bc) → List (Nat × Bc)
  | [] => [x]
  | y :: rest => if keyLe x y then x :: y :: rest else y :: insertAsc x rest

/-- Python `sorted(...)` on `(count, barcode)` pairs. -/
def sortAsc (l : List (Nat × Bc)) : List (Nat × Bc) := l.foldr insertAsc []

def insertDesc (x : Nat × Bc) : List (Nat × Bc) → List (Nat × Bc)
  | [] => [x]
  | y :: rest => if keyLe y x then x :: y :: rest else y :: insertDesc x rest

/-- Python `sorted(..., reverse=True)` on `(count, barcode)` pairs. -/
def sortDesc (l : List (Nat × Bc)) : List (Nat × Bc) := l.foldr insertDesc []

/-- Step 1 inner loop of `_merge_similar_randomers`: try the ranked accepted
barcodes in order and merge the ambiguous barcode into the first match. -/
def step1Try (d : BcMap) (amb_bc : Bc) (mismatches : Nat) : List (Nat × Bc) → Option BcMap
  | [] => none
  | e :: rest =>
    if _match e.2 amb_bc mismatches then some (mergeInto d e.2 amb_bc)
    else step1Try d amb_bc mismatches rest

/-- Embeds `sorted([(len(hits), bc) for bc, hits in by_bc.items() if bc in accepted_bcs],
reverse=True)`. -/
def orderAccepted (d : BcMap) (accepted : List Bc) : List (Nat × Bc) :=
  sortDesc ((d.filter fun e => accepted.any fun b => decide (b = e.1)).map fun e => (e.2.length, e.1))

/-- Step 1 outer loop over the sorted ambiguous barcodes. -/
def step1Go (mismatches : Nat) : BcMap → List Bc → List (Nat × Bc) → BcMap × List Bc
  | d, accepted, [] => (d, accepted)
  | d, accepted, e :: rest =>
    match step1Try d e.2 mismatches (orderAccepted d accepted) with
    | some d' => step1Go mismatches d' accepted rest
    | none => step1Go mismatches d (accepted ++ [e.2]) rest

/-- Step 1 (ambiguity resolution) of `_merge_similar_randomers`. -/
def step1 (d : BcMap) (mismatches : Nat) : BcMap :=
  let accepted := (d.filter fun e => decide (countN e.1 = 0)).map fun e => e.1
  let ambig := sortAsc ((d.filter fun e => !(decide (countN e.1 = 0))).map fun e => (countN e.1, e.1))
  (step1Go mismatches d accepted ambig).1

/-- Step 2 inner loop: merge every later barcode matching `bc` into `bc`;
the Bool records whether any merge happened. -/
def pass2Inner (mismatches : Nat) (d : BcMap) (bc : Bc) : List (Nat × Bc) → BcMap × Bool
  | [] => (d, false)
  | e :: rest =>
    if _match bc e.2 mismatches then
      ((pass2Inner mismatches (mergeInto d bc e.2) bc rest).1, true)
    else pass2Inner mismatches d bc rest

/-- Step 2 scan over the ranked barcodes, stopping after the first barcode
whose inner scan merged something. -/
def pass2Outer (mismatches : Nat) (d : BcMap) : List (Nat × Bc) → BcMap × Bool
  | [] => (d, false)
  | e :: rest =>
    if (pass2Inner mismatches d e.2 rest).2 then ((pass2Inner mismatches d e.2 rest).1, true)
    else pass2Outer mismatches (pass2Inner mismatches d e.2 rest).1 rest

/-- Embeds `sorted([(len(hits), bc) for bc, hits in by_bc.items()], reverse=True)`. -/
def orderAll (d : BcMap) : List (Nat × Bc) := sortDesc (d.map fun e => (e.2.length, e.1))

/-- Number of entries of `d` whose key is `k`. -/
def cntK (d : BcMap) (k : Bc) : Nat := d.countP fun e => decide (e.1 = k)

/-- Number of ranking entries carrying barcode `k`. -/
def cntL (l : List (Nat × Bc)) (k : Bc) : Nat := l.countP fun e => decide (e.2 = k)

/-- One pass of the `while merged` loop of step 2, with the remaining fuel.
Each merging pass removes at least one barcode from the dict (proved in
`pass2Outer_spec` below), so `d.length + 1` passes always reach the
no-merge pass and the fuel-exhaustion branch is unreachable. -/
def step2Fuel (mismatches : Nat) : Nat → BcMap → BcMap
  | 0, d => d
  | fuel + 1, d =>
    if (pass2Outer mismatches d (orderAll d)).2 then
      step2Fuel mismatches fuel (pass2Outer mismatches d (orderAll d)).1
    else (pass2Outer mismatches d (orderAll d)).1

/-- Step 2 (pairwise clustering) of `_merge_similar_randomers`. -/
def step2 (d : BcMap) (mismatches : Nat) : BcMap :=
  step2Fuel mismatches (d.length + 1) d

/-- Embeds `_merge_similar_randomers(by_bc, mismatches)` from `xlsites.py`
(returning the new dict instead of mutating in place). -/
def _merge_similar_randomers (by_bc : BcMap) (mismatches : Nat) : BcMap :=
  step2 (step1 by_bc mismatches) mismatches

/-- The `counts` dict of `_collapse`: position → `[cDNA_count, reads_count]`. -/
abbrev Counts := List (Int × (ℚ × Nat))

/-- Embeds `counts.get(pos, (0, 0))`. -/
def countsGet (counts : Counts) (pos : Int) : ℚ × Nat :=
  match counts with
  | [] => (0, 0)
  | e :: rest => if e.1 = pos then e.2 else countsGet rest pos

/-- Embeds `counts[pos] = v`. -/
def countsSet (counts : Counts) (pos : Int) (v : ℚ × Nat) : Counts :=
  match counts with
  | [] => [(pos, v)]
  | e :: rest => if e.1 = pos then (e.1, v) :: rest else e :: countsSet rest pos v

/-- Embeds `ss_groups.setdefault(read[4], []).append(read)` for one read. -/
def appendHit (groups : List (Int × List Hit)) (k : Int) (h : Hit) : List (Int × List Hit) :=
  match groups with
  | [] => [(k, [h])]
  | e :: rest => if e.1 = k then (e.1, e.2 ++ [h]) :: rest else e :: appendHit rest k h

/-- The `ss_groups` dict of `_collapse`: hits of one barcode grouped by
their `second_start` value, in insertion order. -/
def ssGroups (hits : List Hit) : List (Int × List Hit) :=
  hits.foldl (fun acc read => appendHit acc read.second_start read) []

/-- The hits of a second-start group with `num_mapped <= multimax`
(the comprehension filter used by `_collapse`). -/
def eligibleHits (ss_group : List Hit) (multimax : Nat) : List Hit :=
  ss_group.filter fun i => decide (i.num_mapped ≤ multimax)

/-- Embeds `sum([i[2] for i in ss_group if i[3] <= multimax])` of `_collapse`. -/
def sum_len_per_barcode (ss_group : List Hit) (multimax : Nat) : Nat :=
  ((eligibleHits ss_group multimax).map Hit.read_len).sum

/-- The body of the inner `for ... in ss_group` loop of `_collapse`:
skip a hit mapped more than `multimax` times, otherwise add its weight
`read_len / (num_mapped * sum_len_per_barcode)` and one read at the
grouping position selected by `gi`. -/
def collapseHit (xlink_pos : Int) (gi : Nat) (multimax : Nat) (slen : Nat)
    (counts : Counts) (h : Hit) : Counts :=
  if multimax < h.num_mapped then counts
  else
    let grp_pos := [xlink_pos, h.middle_pos, h.end_pos].getD gi 0
    let w : ℚ := (h.read_len : ℚ) / ((h.num_mapped : ℚ) * (slen : ℚ))
    countsSet counts grp_pos ((countsGet counts grp_pos).1 + w, (countsGet counts grp_pos).2 + 1)

/-- Processing of one second-start group by `_collapse`. -/
def collapseGroup (xlink_pos : Int) (gi multimax : Nat) (counts : Counts)
    (ss_group : List Hit) : Counts :=
  ss_group.foldl (collapseHit xlink_pos gi multimax (sum_len_per_barcode ss_group multimax)) counts

/-- Embeds `['start', 'middle', 'end'].index(group_by)` (total: callers assert
membership, so the out-of-range value on absence is never used). -/
def pyIndexStr (x : String) : List String → Nat
  | [] => 0
  | s :: rest => if s = x then 0 else pyIndexStr x rest + 1

/-- Embeds `_collapse(xlink_pos, by_bc, group_by, multimax)` from `xlsites.py`. -/
def _collapse (xlink_pos : Int) (by_bc : BcMap) (group_by : String) (multimax : Nat) : Counts :=
  let gi := pyIndexStr group_by ["start", "middle", "end"]
  by_bc.foldl (fun counts e =>
    (ssGroups e.2).foldl (fun cs g => collapseGroup xlink_pos gi multimax cs g.2) counts) []

/-- Embeds `_update(cur_vals, to_add)` from `xlsites.py` (returning the updated
dict instead of mutating in place). -/
def _update (cur_vals : Counts) (to_add : Counts) : Counts :=
  to_add.foldl (fun cur pv =>
    countsSet cur pv.1 ((countsGet cur pv.1).1 + pv.2.1, (countsGet cur pv.1).2 + pv.2.2)) cur_vals

/-- Componentwise total of the values stored at `pos` in `l`. -/
def sumAt (l : Counts) (pos : Int) : ℚ × Nat :=
  l.foldr (fun pv acc => if pv.1 = pos then (pv.2.1 + acc.1, pv.2.2 + acc.2) else acc) (0, 0)

/-- Componentwise sum of a list of `(cDNA, reads)` pairs. -/
def pairSum (l : List (ℚ × Nat)) : ℚ × Nat :=
  l.foldr (fun a b => (a.1 + b.1, a.2 + b.2)) (0, 0)

/-- The per-(chromosome, strand) loop body of `run`: for every cross-link
position merge the randomers once, then collapse with `multimax=1` into the
unique table and with the configured `multimax` into the multi table. -/
def bucketTables (by_pos : List (Int × BcMap)) (group_by : String)
    (mismatches multimax : Nat) : Counts × Counts :=
  by_pos.foldl (fun acc e =>
    (_update acc.1 (_collapse e.1 (_merge_similar_randomers e.2 mismatches) group_by 1),
     _update acc.2 (_collapse e.1 (_merge_similar_randomers e.2 mismatches) group_by multimax)))
    ([], [])

abbrev SiteTables := List ((String × String) × Counts)

/-- The `Detecting cross-links...` loop of `run` (lines 637-654): build the
`unique` and `multi` tables bucket by bucket. -/
def detect (grouped : List ((String × String) × List (Int × BcMap)))
    (group_by : String) (mismatches multimax : Nat) : SiteTables × SiteTables :=
  grouped.foldl (fun acc e =>
    (acc.1 ++ [(e.1, (bucketTables e.2 group_by mismatches multimax).1)],
     acc.2 ++ [(e.1, (bucketTables e.2 group_by mismatches multimax).2)]))
    ([], [])

/-- One annotation segment interval (attributes `start` and `stop`). -/
structure Segment where
  start : Int
  stop : Int
deriving DecidableEq, Repr

/-- The prepared segmentation: (chromosome, strand) → gene id →
transcript id → segment list, as nested insertion-ordered dicts. -/
abbrev Annot := List ((String × String) × List (String × List (String × List Segment)))

/-- Embeds `annotation[(chrom, strand)]`; `none` models the `KeyError`. -/
def lookupAnnot (a : Annot) (k : String × String) :
    Option (List (String × List (String × List Segment))) :=
  match a with
  | [] => none
  | e :: rest => if e.1 = k then some e.2 else lookupAnnot rest k

/-- Embeds `_intersects_with_annotaton(second_start, annotation, chrom, strand)`
from `xlsites.py`; `none` models the `KeyError` on a missing
(chromosome, strand) key. -/
def _intersects_with_annotaton (second_start : Int) (a : Annot)
    (chrom strand : String) : Option Bool :=
  match lookupAnnot a (chrom, strand) with
  | none => none
  | some genes => some (genes.any fun gene =>
      gene.2.any fun transcript =>
        !(decide (transcript.1 = "gene_segment")) && transcript.2.any fun seg =>
          if strand = "+" then decide (second_start = seg.start)
          else decide (second_start = seg.stop))

/-- Embeds `holes = [j-i-1 for i, j in zip(poss, poss[1:])]`. -/
def holesOf (poss : List Int) : List Int :=
  (poss.zip poss.tail).map fun p => p.2 - p.1 - 1

/-- Python `max` on a list of ints (callers guard against the empty list). -/
def pyMaxInt : List Int → Int
  | [] => 0
  | x :: rest => rest.foldl max x

/-- Embeds `holes.index(x)`; `none` models the `ValueError` when `x` is absent. -/
def pyIndexInt (x : Int) : List Int → Option Nat
  | [] => none
  | y :: rest => if y = x then some 0 else (pyIndexInt x rest).map (· + 1)

/-- Embeds `_second_start(read, poss, strange, strand, chrom, annotation,
holesize_th)` from `xlsites.py`, returning `(second_start, appended to
strange?)`; `none` models an uncaught exception (`ValueError` from
`holes.index` when `holes` is empty, or `KeyError` from the annotation
lookup).  An absent or empty prepared annotation is falsy in Python. -/
def _second_start (poss : List Int) (strand chrom : String)
    (annot : Option Annot) (holesize_th : Int) : Option (Int × Bool) :=
  let holes := holesOf poss
  let biggest_hole_size := if holes = [] then 0 else pyMaxInt holes
  match annot with
  | none => some (0, decide (biggest_hole_size > holesize_th))
  | some a =>
    if a.isEmpty then some (0, decide (biggest_hole_size > holesize_th))
    else
      match pyIndexInt biggest_hole_size holes with
      | none => none
      | some idx =>
        let second_start := if strand = "+" then poss.getD (idx + 1) 0 else poss.getD idx 0
        match _intersects_with_annotaton second_start a chrom strand with
        | none => none
        | some true => some (second_start, false)
        | some false => some (0, true)

/-- The fields of a `pysam` record consumed by `_processs_bam_file`.
`nh` is the optional `NH` tag; `chrom` stands for
`bamfile.references[r.tid]`. -/
structure BamRec where
  is_unmapped : Bool
  mapq : Int
  nh : Option Nat
  query_name : Bc
  positions : List Int
  is_reverse : Bool
  seq_len : Nat
  chrom : String
deriving DecidableEq, Repr

def Metrics.incAll (m : Metrics) : Metrics :=
  Metrics.mk (m.all_recs + 1) m.notmapped_recs m.mapped_recs m.lowmapq_recs
    m.used_recs m.invalidrandomer_recs m.norandomer_recs m.bc_cn

def Metrics.incNotmapped (m : Metrics) : Metrics :=
  Metrics.mk m.all_recs (m.notmapped_recs + 1) m.mapped_recs m.lowmapq_recs
    m.used_recs m.invalidrandomer_recs m.norandomer_recs m.bc_cn

def Metrics.incMapped (m : Metrics) : Metrics :=
  Metrics.mk m.all_recs m.notmapped_recs (m.mapped_recs + 1) m.lowmapq_recs
    m.used_recs m.invalidrandomer_recs m.norandomer_recs m.bc_cn

def Metrics.incLowmapq (m : Metrics) : Metrics :=
  Metrics.mk m.all_recs m.notmapped_recs m.mapped_recs (m.lowmapq_recs + 1)
    m.used_recs m.invalidrandomer_recs m.norandomer_recs m.bc_cn

def Metrics.incUsed (m : Metrics) : Metrics :=
  Metrics.mk m.all_recs m.notmapped_recs m.mapped_recs m.lowmapq_recs
    (m.used_recs + 1) m.invalidrandomer_recs m.norandomer_recs m.bc_cn

def Metrics.withBcCn (m : Metrics) (cn : List (Bc × Nat)) : Metrics :=
  Metrics.mk m.all_recs m.notmapped_recs m.mapped_recs m.lowmapq_recs
    m.used_recs m.invalidrandomer_recs m.norandomer_recs cn

/-- Embeds `metrics.bc_cn[bc] = metrics.bc_cn.get(bc, 0) + 1`. -/
def bumpBc (cn : List (Bc × Nat)) (bc : Bc) : List (Bc × Nat) :=
  match cn with
  | [] => [(bc, 1)]
  | e :: rest => if e.1 = bc then (e.1, e.2 + 1) :: rest else e :: bumpBc rest bc

/-- The `grouped` container: (chromosome, strand) → cross-link position →
barcode → hits. -/
abbrev Grouped := List ((String × String) × List (Int × BcMap))

def addHitToBcMap (d : BcMap) (bc : Bc) (h : Hit) : BcMap :=
  match d with
  | [] => [(bc, [h])]
  | e :: rest => if e.1 = bc then (e.1, e.2 ++ [h]) :: rest else e :: addHitToBcMap rest bc h

def addHitToPos (l : List (Int × BcMap)) (pos : Int) (bc : Bc) (h : Hit) :
    List (Int × BcMap) :=
  match l with
  | [] => [(pos, [(bc, [h])])]
  | e :: rest => if e.1 = pos then (e.1, addHitToBcMap e.2 bc h) :: rest
    else e :: addHitToPos rest pos bc h

/-- The chained `setdefault` calls storing one hit in `grouped`. -/
def addHitToGrouped (g : Grouped) (cs : String × String) (pos : Int) (bc : Bc)
    (h : Hit) : Grouped :=
  match g with
  | [] => [(cs, [(pos, [(bc, [h])])])]
  | e :: rest => if e.1 = cs then (e.1, addHitToPos e.2 pos bc h) :: rest
    else e :: addHitToGrouped rest cs pos bc h

def insertIntAsc (x : Int) : List Int → List Int
  | [] => [x]
  | y :: rest => if decide (x ≤ y) then x :: y :: rest else y :: insertIntAsc x rest

/-- Embeds `sorted(r.positions)`. -/
def pySortedInt (l : List Int) : List Int := l.foldr insertIntAsc []

/-- The middle index of the sorted position list (lines 520-528): `n // 2`,
with the minus-strand adjustment to `n // 2 - 1` when `n` is even. -/
def middleIdx (n : Nat) (strand : String) : Nat :=
  if n % 2 = 0 then (if strand = "-" then n / 2 - 1 else n / 2) else n / 2

/-- Cross-link position: one nucleotide before the read start (`poss[0]-1`
on `+`, `poss[-1]+1` on `-`). -/
def xlinkPos (poss : List Int) (is_rev : Bool) : Int :=
  if is_rev then poss.getLastD 0 + 1 else poss.headD 0 - 1

/-- End position: `poss[0]` on the minus strand, `poss[-1]` on plus. -/
def endPos (poss : List Int) (is_rev : Bool) : Int :=
  if is_rev then poss.headD 0 else poss.getLastD 0

/-- Embeds `poss[i]` for the middle index. -/
def middlePos (poss : List Int) (strand : String) : Int :=
  poss.getD (middleIdx poss.length strand) 0

/-- The per-record body of the `for r in bamfile` loop of
`_processs_bam_file` (lines 480-540), acting on the state
`(metrics, grouped, strange)`.  `none` models an uncaught exception: the
`ValueError` raised when the `NH` tag is missing, the `IndexError` on an
empty position list, and the exceptions propagated from `_second_start`. -/
def processRecord (mapq_th : Int) (annot : Option Annot) (holesize_th : Int)
    (st : Metrics × Grouped × List BamRec) (r : BamRec) :
    Option (Metrics × Grouped × List BamRec) :=
  let metrics := st.1.incAll
  if r.is_unmapped then some (metrics.incNotmapped, st.2.1, st.2.2)
  else
    let metrics := metrics.incMapped
    if r.mapq < mapq_th then some (metrics.incLowmapq, st.2.1, st.2.2)
    else
      let metrics := metrics.incUsed
      match r.nh with
      | none => none
      | some num_mapped =>
        let bcm := _get_random_barcode r.query_name metrics
        let metrics := bcm.2.withBcCn (bumpBc bcm.2.bc_cn bcm.1)
        let poss := pySortedInt r.positions
        if poss = [] then none
        else
          let strand := if r.is_reverse then "-" else "+"
          match _second_start poss strand r.chrom annot holesize_th with
          | none => none
          | some ss =>
            let read_data :=
              Hit.mk (middlePos poss strand) (endPos poss r.is_reverse) r.seq_len num_mapped ss.1
            some (metrics,
              addHitToGrouped st.2.1 (r.chrom, strand) (xlinkPos poss r.is_reverse) bcm.1 read_data,
              st.2.2 ++ if ss.2 then [r] else [])

/-- The whole record loop of `_processs_bam_file`: the first uncaught
exception aborts the run. -/
def processRecords (mapq_th : Int) (annot : Option Annot) (holesize_th : Int)
    (recs : List BamRec) : Option (Metrics × Grouped × List BamRec) :=
  recs.foldl (fun acc r => match acc with
    | none => none
    | some st => processRecord mapq_th annot holesize_th st r)
    (some (Metrics.mk 0 0 0 0 0 0 0 [], [], []))

/-- Claim-side count (C2): positions `i` below the shorter length whose
uppercased characters are equal or where either is the wildcard `'N'`. -/
def countMatchPos (s1 s2 : Bc) : Nat :=
  (List.range (min s1.length s2.length)).countP fun i =>
    nmatch ((pyUpper s1).getD i 'A') ((pyUpper s2).getD i 'A')

/-- Total cDNA weight stored in a counts dict. -/
def countsTotalW (l : Counts) : ℚ := (l.map fun pv => pv.2.1).sum

/-- Total read count stored in a counts dict. -/
def countsTotalR (l : Counts) : Nat := (l.map fun pv => pv.2.2).sum

/-- Claim-side sum (C1): the total cDNA weight `_collapse` assigns to the
hits of one second-start group. -/
def Wsum (ss_group : List Hit) (multimax : Nat) : ℚ :=
  ((eligibleHits ss_group multimax).map fun h =>
    (h.read_len : ℚ) / ((h.num_mapped : ℚ) * (sum_len_per_barcode ss_group multimax : ℚ))).sum

/-- No two distinct entries of the merged dict match within `mismatches`:
the invariant characterising the fixed points of the merge. -/
def PairwiseNoMatch (mismatches : Nat) (d : BcMap) : Prop :=
  List.Pairwise (fun e1 e2 => _match e1.1 e2.1 mismatches = false) d

/-- Multiset invariant of the step-2 inner loop: every barcode occurring in
the remaining ranking entries, plus the outer barcode `bc` itself, is still
a key of the dict with at least that multiplicity. -/
def INVinner (d : BcMap) (bc : Bc) (l : List (Nat × Bc)) : Prop :=
  ∀ k, cntL l k + (if bc = k then 1 else 0) ≤ cntK d k

/-- Multiset invariant of the step-2 outer loop. -/
def INVouter (d : BcMap) (l : List (Nat × Bc)) : Prop :=
  ∀ k, cntL l k ≤ cntK d k

/-- A hit with read length 1 mapped to 2 places (C1 counterexample). -/
def hitCE : Hit := Hit.mk 0 0 1 2 0

/-- A hit with read length 1 and `num_mapped = 0` (C10 counterexample). -/
def hitNm0 : Hit := Hit.mk 0 0 1 0 0

/-- Uniquely mapped hits of read lengths 2 and 3 (C1 witness). -/
def hitU2 : Hit := Hit.mk 0 0 2 1 0

def hitU3 : Hit := Hit.mk 0 0 3 1 0

/-- An annotation with a segment starting at position 11 on chr1/+ (C4). -/
def annotC4 : Annot := [(("chr1", "+"), [("g1", [("t1", [Segment.mk 11 20])])])]

/-- A mapped, good-quality record with `NH` set and a single covered
position (C9). -/
def recC9 : BamRec := BamRec.mk false 255 (some 1) ['r', ':', 'A', 'C'] [5] false 20 "chr1"

theorem cntK_cons (e : Bc × List Hit) (d : BcMap) (k : Bc) :
    cntK (e :: d) k = (if e.1 = k then 1 else 0) + cntK d k := by
  simp only [cntK, List.countP_cons]
  by_cases he : e.1 = k <;> simp [he, Nat.add_comm]

theorem cntL_cons (e : Nat × Bc) (l : List (Nat × Bc)) (k : Bc) :
    cntL (e :: l) k = (if e.2 = k then 1 else 0) + cntL l k := by
  simp only [cntL, List.countP_cons]
  by_cases he : e.2 = k <;> simp [he, Nat.add_comm]

theorem popBc_length (d : BcMap) (k : Bc) (h : 1 ≤ cntK d k) :
    (popBc d k).length + 1 = d.length := by
  induction d with
  | nil => simp [cntK] at h
  | cons e rest ih =>
    rw [cntK_cons] at h
    simp only [popBc]
    by_cases he : e.1 = k
    · simp [he]
    · rw [if_neg he] at h ⊢
      simp only [List.length_cons]
      have := ih (by omega)
      omega

theorem cntK_popBc (d : BcMap) (k k' : Bc) (h : 1 ≤ cntK d k) :
    cntK (popBc d k) k' + (if k' = k then 1 else 0) = cntK d k' := by
  induction d with
  | nil => simp [cntK] at h
  | cons e rest ih =>
    rw [cntK_cons] at h
    simp only [popBc]
    by_cases he : e.1 = k
    · rw [if_pos he, cntK_cons]
      by_cases hk : k' = k
      · rw [if_pos hk, if_pos (he.trans hk.symm)]
        omega
      · rw [if_neg hk, if_neg (fun hh : e.1 = k' => hk (hh.symm.trans he))]
        omega
    · rw [if_neg he] at h
      rw [if_neg he, cntK_cons, cntK_cons]
      have := ih (by omega)
      omega

theorem setBc_length (d : BcMap) (k : Bc) (v : List Hit) (h : 1 ≤ cntK d k) :
    (setBc d k v).length = d.length := by
  induction d with
  | nil => simp [cntK] at h
  | cons e rest ih =>
    rw [cntK_cons] at h
    simp only [setBc]
    by_cases he : e.1 = k
    · simp [he]
    · rw [if_neg he] at h
      rw [if_neg he]
      simp only [List.length_cons]
      have := ih (by omega)
      omega

theorem cntK_setBc (d : BcMap) (k k' : Bc) (v : List Hit) (h : 1 ≤ cntK d k) :
    cntK (setBc d k v) k' = cntK d k' := by
  induction d with
  | nil => simp [cntK] at h
  | cons e rest ih =>
    rw [cntK_cons] at h
    simp only [setBc]
    by_cases he : e.1 = k
    · rw [if_pos he, cntK_cons, cntK_cons, he]
    · rw [if_neg he] at h
      rw [if_neg he, cntK_cons, cntK_cons]
      have := ih (by omega)
      omega

theorem insertAsc_perm (x : Nat × Bc) (l : List (Nat × Bc)) :
    List.Perm (insertAsc x l) (x :: l) := by
  induction l with
  | nil => exact List.Perm.refl _
  | cons y rest ih =>
    simp only [insertAsc]
    by_cases hc : keyLe x y = true
    · rw [if_pos hc]
    · rw [if_neg hc]
      exact (List.Perm.cons y ih).trans (List.Perm.swap x y rest)

theorem sortAsc_perm (l : List (Nat × Bc)) : List.Perm (sortAsc l) l := by
  induction l with
  | nil => exact List.Perm.refl _
  | cons y rest ih =>
    exact (insertAsc_perm y (sortAsc rest)).trans (List.Perm.cons y ih)

theorem insertDesc_perm (x : Nat × Bc) (l : List (Nat × Bc)) :
    List.Perm (insertDesc x l) (x :: l) := by
  induction l with
  | nil => exact List.Perm.refl _
  | cons y rest ih =>
    simp only [insertDesc]
    by_cases hc : keyLe y x = true
    · rw [if_pos hc]
    · rw [if_neg hc]
      exact (List.Perm.cons y ih).trans (List.Perm.swap x y rest)

theorem sortDesc_perm (l : List (Nat × Bc)) : List.Perm (sortDesc l) l := by
  induction l with
  | nil => exact List.Perm.refl _
  | cons y rest ih =>
    exact (insertDesc_perm y (sortDesc rest)).trans (List.Perm.cons y ih)

theorem cntL_orderAll (d : BcMap) (k : Bc) : cntL (orderAll d) k = cntK d k := by
  unfold orderAll cntL cntK
  rw [(sortDesc_perm _).countP_eq, List.countP_map]
  rfl

theorem mergeInto_length (d : BcMap) (bc bc2 : Bc)
    (h2 : 1 ≤ cntK d bc2)
    (h1 : 1 ≤ cntK d bc + (if bc = bc2 then 0 else 1) - 1) :
    (mergeInto d bc bc2).length + 1 = d.length := by
  have hpop := cntK_popBc d bc2 bc h2
  have hlen := popBc_length d bc2 h2
  have hbcpop : 1 ≤ cntK (popBc d bc2) bc := by
    by_cases hbb : bc = bc2 <;> simp [hbb] at hpop h1 ⊢ <;> omega
  rw [mergeInto, setBc_length _ _ _ hbcpop]
  exact hlen

theorem cntK_mergeInto (d : BcMap) (bc bc2 : Bc) (k : Bc)
    (h2 : 1 ≤ cntK d bc2)
    (h1 : 1 ≤ cntK d bc + (if bc = bc2 then 0 else 1) - 1) :
    cntK (mergeInto d bc bc2) k + (if k = bc2 then 1 else 0) = cntK d k := by
  have hpop := cntK_popBc d bc2 bc h2
  have hbcpop : 1 ≤ cntK (popBc d bc2) bc := by
    by_cases hbb : bc = bc2 <;> simp [hbb] at hpop h1 ⊢ <;> omega
  rw [mergeInto, cntK_setBc _ _ _ _ hbcpop]
  exact cntK_popBc d bc2 k h2

theorem pass2Inner_spec (mismatches : Nat) (l : List (Nat × Bc)) :
    ∀ d bc, INVinner d bc l →
      ((pass2Inner mismatches d bc l).2 = false ∧ (pass2Inner mismatches d bc l).1 = d) ∨
      ((pass2Inner mismatches d bc l).2 = true ∧
        (pass2Inner mismatches d bc l).1.length < d.length) := by
  induction l with
  | nil =>
    intro d bc _
    exact Or.inl ⟨rfl, rfl⟩
  | cons e rest ih =>
    intro d bc hinv
    by_cases hm : _match bc e.2 mismatches = true
    · have h2 : 1 ≤ cntK d e.2 := by
        have ha := hinv e.2
        rw [cntL_cons] at ha
        have : (if e.2 = e.2 then 1 else 0) = 1 := if_pos rfl
        omega
      have h1 : 1 ≤ cntK d bc + (if bc = e.2 then 0 else 1) - 1 := by
        have ha := hinv e.2
        have hb := hinv bc
        rw [cntL_cons] at ha hb
        by_cases hbe : bc = e.2
        · have he1 : (if e.2 = e.2 then 1 else 0) = 1 := if_pos rfl
          have he2 : (if bc = e.2 then 1 else 0) = 1 := if_pos hbe
          have he3 : (if bc = e.2 then 0 else 1) = 0 := if_pos hbe
          rw [hbe] at hb ⊢
          omega
        · have he2 : (if bc = e.2 then 1 else 0) = 0 := if_neg hbe
          have he3 : (if bc = e.2 then 0 else 1) = 1 := if_neg hbe
          have he4 : (if bc = bc then 1 else 0) = 1 := if_pos rfl
          omega
      have hlen := mergeInto_length d bc e.2 h2 h1
      have hinv' : INVinner (mergeInto d bc e.2) bc rest := by
        intro k
        have hk := hinv k
        rw [cntL_cons] at hk
        have hck := cntK_mergeInto d bc e.2 k h2 h1
        by_cases hke : e.2 = k
        · have hck2 : (if k = e.2 then 1 else 0) = 1 := if_pos hke.symm
          have hk2 : (if e.2 = k then 1 else 0) = 1 := if_pos hke
          omega
        · have hck2 : (if k = e.2 then 1 else 0) = 0 := if_neg (fun hh => hke hh.symm)
          have hk2 : (if e.2 = k then 1 else 0) = 0 := if_neg hke
          omega
      have hrec := ih (mergeInto d bc e.2) bc hinv'
      simp only [pass2Inner, if_pos hm]
      rcases hrec with ⟨_, hd⟩ | ⟨_, hl⟩
      · exact Or.inr ⟨by simp, by rw [hd]; omega⟩
      · exact Or.inr ⟨by simp, by omega⟩
    · have hinv' : INVinner d bc rest := by
        intro k
        have hk := hinv k
        rw [cntL_cons] at hk
        omega
      simp only [pass2Inner, if_neg hm]
      exact ih d bc hinv'

theorem pass2Outer_spec (mismatches : Nat) (l : List (Nat × Bc)) :
    ∀ d, INVouter d l →
      ((pass2Outer mismatches d l).2 = false ∧ (pass2Outer mismatches d l).1 = d) ∨
      ((pass2Outer mismatches d l).2 = true ∧ (pass2Outer mismatches d l).1.length < d.length) := by
  induction l with
  | nil =>
    intro d _
    exact Or.inl ⟨rfl, rfl⟩
  | cons e rest ih =>
    intro d hinv
    have hinner : INVinner d e.2 rest := by
      intro k
      have hk := hinv k
      rw [cntL_cons] at hk
      omega
    rcases pass2Inner_spec mismatches rest d e.2 hinner with ⟨hf, hd⟩ | ⟨hf, hlen⟩
    · have hrest : INVouter d rest := by
        intro k
        have hk := hinv k
        rw [cntL_cons] at hk
        omega
      simp only [pass2Outer, hf, Bool.false_eq_true, if_false, hd]
      exact ih d hrest
    · simp only [pass2Outer, hf, if_true]
      exact Or.inr ⟨by simp, hlen⟩

theorem pass2Inner_false (mismatches : Nat) (l : List (Nat × Bc)) :
    ∀ d bc, (pass2Inner mismatches d bc l).2 = false →
      (∀ p ∈ l, _match bc p.2 mismatches = false) ∧ (pass2Inner mismatches d bc l).1 = d := by
  induction l with
  | nil =>
    intro d bc _
    exact ⟨by simp, rfl⟩
  | cons e rest ih =>
    intro d bc hf
    by_cases hm : _match bc e.2 mismatches = true
    · simp only [pass2Inner, if_pos hm] at hf
      cases hf
    · simp only [pass2Inner, if_neg hm] at hf ⊢
      obtain ⟨h1, h2⟩ := ih d bc hf
      refine ⟨?_, h2⟩
      intro p hp
      rcases List.mem_cons.mp hp with hpe | hpr
      · rw [hpe]
        exact Bool.eq_false_iff.mpr hm
      · exact h1 p hpr

theorem pass2Outer_false (mismatches : Nat) (l : List (Nat × Bc)) :
    ∀ d, (pass2Outer mismatches d l).2 = false →
      List.Pairwise (fun a b => _match a.2 b.2 mismatches = false) l ∧
      (pass2Outer mismatches d l).1 = d := by
  induction l with
  | nil =>
    intro d _
    exact ⟨List.Pairwise.nil, rfl⟩
  | cons e rest ih =>
    intro d hf
    by_cases hi : (pass2Inner mismatches d e.2 rest).2 = true
    · simp only [pass2Outer, hi, if_true] at hf
      cases hf
    · have hi' : (pass2Inner mismatches d e.2 rest).2 = false := Bool.eq_false_iff.mpr hi
      obtain ⟨hall, hd⟩ := pass2Inner_false mismatches rest d e.2 hi'
      simp only [pass2Outer, hi', Bool.false_eq_true, if_false, hd] at hf ⊢
      obtain ⟨hpw, hres⟩ := ih d hf
      exact ⟨List.Pairwise.cons (fun p hp => hall p hp) hpw, hres⟩

theorem pass2Inner_nomatch (mismatches : Nat) (l : List (Nat × Bc)) :
    ∀ d bc, (∀ p ∈ l, _match bc p.2 mismatches = false) →
      pass2Inner mismatches d bc l = (d, false) := by
  induction l with
  | nil =>
    intro d bc _
    rfl
  | cons e rest ih =>
    intro d bc h
    have hm : _match bc e.2 mismatches = false := h e (List.mem_cons_self e rest)
    simp only [pass2Inner, hm, Bool.false_eq_true, if_false]
    exact ih d bc (fun p hp => h p (List.mem_cons_of_mem e hp))

theorem pass2Outer_nomatch (mismatches : Nat) (l : List (Nat × Bc)) :
    ∀ d, List.Pairwise (fun a b => _match a.2 b.2 mismatches = false) l →
      pass2Outer mismatches d l = (d, false) := by
  induction l with
  | nil =>
    intro d _
    rfl
  | cons e rest ih =>
    intro d hpw
    obtain ⟨hhead, htail⟩ := List.pairwise_cons.mp hpw
    have hin := pass2Inner_nomatch mismatches rest d e.2 hhead
    simp only [pass2Outer, hin, Bool.false_eq_true, if_false]
    exact ih d htail

theorem countP_zip_self (s : Bc) : ((s.zip s).countP fun p => nmatch p.1 p.2) = s.length := by
  induction s with
  | nil => rfl
  | cons c rest ih =>
    simp only [List.zip_cons_cons, List.countP_cons, ih]
    have hcc : nmatch c c = true := by simp [nmatch]
    rw [hcc]
    simp

theorem _match_refl (bc : Bc) (mismatches : Nat) : _match bc bc mismatches = true := by
  simp [_match, countP_zip_self, Nat.max_self]

theorem nmatch_comm (a b : Char) : nmatch a b = nmatch b a := by
  by_cases h : a = b
  · rw [h]
  · have h' : ¬ b = a := fun hh => h hh.symm
    simp [nmatch, h, h', Bool.or_comm]

theorem countP_zip_comm (s1 : Bc) : ∀ s2 : Bc,
    ((s1.zip s2).countP fun p => nmatch p.1 p.2) =
      ((s2.zip s1).countP fun p => nmatch p.1 p.2) := by
  induction s1 with
  | nil =>
    intro s2
    cases s2 <;> rfl
  | cons c rest ih =>
    intro s2
    cases s2 with
    | nil => rfl
    | cons c2 rest2 => simp [List.countP_cons, ih rest2, nmatch_comm c c2]

theorem _match_symm (s1 s2 : Bc) (mismatches : Nat) :
    _match s1 s2 mismatches = _match s2 s1 mismatches := by
  simp only [_match, pyUpper]
  rw [decide_eq_decide]
  rw [countP_zip_comm, Nat.max_comm]

theorem pairwise_symm_forall {α : Type} {R : α → α → Prop}
    (hsymm : ∀ a b, R a b → R b a) :
    ∀ {l : List α}, List.Pairwise R l → ∀ a ∈ l, ∀ b ∈ l, a ≠ b → R a b := by
  intro l
  induction l with
  | nil =>
    intro _ a ha
    cases ha
  | cons e rest ih =>
    intro h a ha b hb hne
    obtain ⟨hhead, htail⟩ := List.pairwise_cons.mp h
    rcases List.mem_cons.mp ha with hae | har <;> rcases List.mem_cons.mp hb with hbe | hbr
    · exact absurd (hae.trans hbe.symm) hne
    · exact hae ▸ hhead b hbr
    · exact hsymm b a (hbe ▸ hhead a har)
    · exact ih htail a har b hbr hne

theorem nomatch_symmetric (mismatches : Nat) :
    Symmetric fun a b : Nat × Bc => _match a.2 b.2 mismatches = false := by
  intro a b hab
  rw [_match_symm]
  exact hab

theorem neKey_symmetric : Symmetric fun p q : Nat × Bc => p.2 ≠ q.2 := by
  intro a b h
  exact Ne.symm h

theorem pairwise_orderAll_iff (mismatches : Nat) (d : BcMap) :
    List.Pairwise (fun a b => _match a.2 b.2 mismatches = false) (orderAll d) ↔
      PairwiseNoMatch mismatches d := by
  unfold orderAll PairwiseNoMatch
  rw [List.Perm.pairwise_iff (fun {x y} h => nomatch_symmetric mismatches h) (sortDesc_perm _)]
  rw [List.pairwise_map]

theorem step2Fuel_pairwise (mismatches : Nat) :
    ∀ (fuel : Nat) (d : BcMap), d.length < fuel →
      PairwiseNoMatch mismatches (step2Fuel mismatches fuel d) := by
  intro fuel
  induction fuel with
  | zero =>
    intro d h
    exact absurd h (Nat.not_lt_zero _)
  | succ fuel ih =>
    intro d hlen
    by_cases hflag : (pass2Outer mismatches d (orderAll d)).2 = true
    · simp only [step2Fuel]
      rw [if_pos hflag]
      rcases pass2Outer_spec mismatches (orderAll d) d (fun k => (cntL_orderAll d k).le) with
        ⟨hf, _⟩ | ⟨_, hl⟩
      · rw [hflag] at hf
        cases hf
      · exact ih _ (by omega)
    · have hf : (pass2Outer mismatches d (orderAll d)).2 = false := Bool.eq_false_iff.mpr hflag
      obtain ⟨hpw, hd⟩ := pass2Outer_false mismatches (orderAll d) d hf
      simp only [step2Fuel]
      rw [if_neg hflag, hd]
      exact (pairwise_orderAll_iff mismatches d).mp hpw

theorem step2Fuel_id (mismatches : Nat) (fuel : Nat) (d : BcMap)
    (hQ : PairwiseNoMatch mismatches d) : step2Fuel mismatches (fuel + 1) d = d := by
  have hpass := pass2Outer_nomatch mismatches (orderAll d) d
    ((pairwise_orderAll_iff mismatches d).mpr hQ)
  simp only [step2Fuel, hpass]
  simp

theorem step2_id (d : BcMap) (mismatches : Nat) (hQ : PairwiseNoMatch mismatches d) :
    step2 d mismatches = d := step2Fuel_id mismatches d.length d hQ

theorem merge_pairwise (by_bc : BcMap) (mismatches : Nat) :
    PairwiseNoMatch mismatches (_merge_similar_randomers by_bc mismatches) := by
  unfold _merge_similar_randomers step2
  exact step2Fuel_pairwise mismatches _ _ (Nat.lt_succ_self _)

theorem pairwiseNoMatch_keys_nodup {mismatches : Nat} {d : BcMap}
    (h : PairwiseNoMatch mismatches d) : (d.map fun e => e.1).Nodup := by
  show (d.map fun e => e.1).Pairwise (fun a b => a ≠ b)
  rw [List.pairwise_map]
  refine h.imp ?_
  intro a b hm heq
  have hrefl := _match_refl b.1 mismatches
  rw [heq] at hm
  rw [hrefl] at hm
  cases hm

theorem pairwise_keys_nomatch {mismatches : Nat} {d : BcMap} (h : PairwiseNoMatch mismatches d) :
    ∀ e1 ∈ d, ∀ e2 ∈ d, e1.1 ≠ e2.1 → _match e1.1 e2.1 mismatches = false := by
  intro e1 h1 e2 h2 hne
  exact pairwise_symm_forall (fun a b hab => by rw [_match_symm]; exact hab) h e1 h1 e2 h2
    (fun hh => hne (by rw [hh]))

theorem step1Try_none (d : BcMap) (amb : Bc) (mismatches : Nat) :
    ∀ l : List (Nat × Bc), (∀ p ∈ l, _match p.2 amb mismatches = false) →
      step1Try d amb mismatches l = none := by
  intro l
  induction l with
  | nil =>
    intro _
    rfl
  | cons e rest ih =>
    intro h
    have hm := h e (List.mem_cons_self e rest)
    simp only [step1Try, hm, Bool.false_eq_true, if_false]
    exact ih (fun p hp => h p (List.mem_cons_of_mem e hp))

theorem mem_orderAccepted {d : BcMap} {accepted : List Bc} {p : Nat × Bc}
    (hp : p ∈ orderAccepted d accepted) :
    ∃ ed ∈ d, ed.1 = p.2 ∧ p.2 ∈ accepted := by
  unfold orderAccepted at hp
  have hp' := (sortDesc_perm _).mem_iff.mp hp
  obtain ⟨ed, hed, hfe⟩ := List.mem_map.mp hp'
  have hedd := List.mem_filter.mp hed
  obtain ⟨b, hb, hbe⟩ := List.any_eq_true.mp hedd.2
  have hbev : b = ed.1 := of_decide_eq_true hbe
  refine ⟨ed, hedd.1, ?_, ?_⟩
  · rw [← hfe]
  · rw [← hfe]
    exact hbev ▸ hb

theorem step1Go_id (mismatches : Nat) (d : BcMap) (hQ : PairwiseNoMatch mismatches d) :
    ∀ (ambl : List (Nat × Bc)) (accepted : List Bc),
      (∀ p ∈ ambl, ∃ ea ∈ d, ea.1 = p.2) →
      (∀ p ∈ ambl, ¬ p.2 ∈ accepted) →
      List.Pairwise (fun p q : Nat × Bc => p.2 ≠ q.2) ambl →
      (step1Go mismatches d accepted ambl).1 = d := by
  intro ambl
  induction ambl with
  | nil =>
    intro accepted _ _ _
    rfl
  | cons e rest ih =>
    intro accepted hkeys hnacc hnd
    obtain ⟨ea, hea, heae⟩ := hkeys e (List.mem_cons_self e rest)
    have htry : step1Try d e.2 mismatches (orderAccepted d accepted) = none := by
      apply step1Try_none
      intro p hp
      obtain ⟨ed, hed, hede, hacc⟩ := mem_orderAccepted hp
      have hne : ed.1 ≠ ea.1 := by
        rw [hede, heae]
        intro hh
        exact hnacc e (List.mem_cons_self e rest) (hh ▸ hacc)
      have hmm := pairwise_keys_nomatch hQ ed hed ea hea hne
      rw [hede, heae] at hmm
      exact hmm
    simp only [step1Go, htry]
    refine ih (accepted ++ [e.2]) (fun p hp => hkeys p (List.mem_cons_of_mem e hp)) ?_
      (List.pairwise_cons.mp hnd).2
    intro p hp hmem
    rcases List.mem_append.mp hmem with hacc | hsing
    · exact hnacc p (List.mem_cons_of_mem e hp) hacc
    · have hpe : p.2 = e.2 := List.mem_singleton.mp hsing
      exact (List.pairwise_cons.mp hnd).1 p hp hpe.symm

theorem step1_id (d : BcMap) (mismatches : Nat) (hQ : PairwiseNoMatch mismatches d) :
    step1 d mismatches = d := by
  unfold step1
  apply step1Go_id mismatches d hQ
  · intro p hp
    have hp' := (sortAsc_perm _).mem_iff.mp hp
    obtain ⟨ed, hed, hfe⟩ := List.mem_map.mp hp'
    exact ⟨ed, (List.mem_filter.mp hed).1, by rw [← hfe]⟩
  · intro p hp hmem
    have hp' := (sortAsc_perm _).mem_iff.mp hp
    obtain ⟨ed, hed, hfe⟩ := List.mem_map.mp hp'
    have hNs : ¬ countN ed.1 = 0 := by
      have hh := (List.mem_filter.mp hed).2
      simpa using hh
    obtain ⟨eb, heb, hebe⟩ := List.mem_map.mp hmem
    have hNs0 : countN eb.1 = 0 := by
      have hh := (List.mem_filter.mp heb).2
      simpa using hh
    apply hNs
    have hedp : ed.1 = p.2 := by rw [← hfe]
    rw [hedp, ← hebe]
    exact hNs0
  · have hnodup := pairwiseNoMatch_keys_nodup hQ
    have hsub : List.Sublist (d.filter fun e => !(decide (countN e.1 = 0))) d :=
      List.filter_sublist d
    have hnd : ((d.filter fun e => !(decide (countN e.1 = 0))).map fun e => e.1).Nodup :=
      (hsub.map fun e => e.1).nodup hnodup
    have hfilt : List.Pairwise (fun a b : Bc × List Hit => a.1 ≠ b.1)
        (d.filter fun e => !(decide (countN e.1 = 0))) := List.pairwise_map.mp hnd
    have hmap : List.Pairwise (fun p q : Nat × Bc => p.2 ≠ q.2)
        ((d.filter fun e => !(decide (countN e.1 = 0))).map fun e => (countN e.1, e.1)) :=
      List.pairwise_map.mpr hfilt
    exact (List.Perm.pairwise_iff (fun {x y} h => neKey_symmetric h) (sortAsc_perm _)).mpr hmap

/-- C3: `_merge_similar_randomers` is idempotent: applied to its own output
(for the same mismatch threshold) it returns that output unchanged -- the
same barcode keys bound to the same hit lists. -/
theorem merge_similar_randomers_idempotent (by_bc : BcMap) (mismatches : Nat) :
    _merge_similar_randomers (_merge_similar_randomers by_bc mismatches) mismatches =
      _merge_similar_randomers by_bc mismatches := by
  have hQ := merge_pairwise by_bc mismatches
  show step2 (step1 (_merge_similar_randomers by_bc mismatches) mismatches) mismatches = _
  rw [step1_id _ _ hQ]
  exact step2_id _ _ hQ

theorem countsGet_countsSet (c : Counts) (k p : Int) (v : ℚ × Nat) :
    countsGet (countsSet c k v) p = if k = p then v else countsGet c p := by
  induction c with
  | nil => simp only [countsSet, countsGet]
  | cons e rest ih =>
    simp only [countsSet]
    by_cases he : e.1 = k
    · rw [if_pos he]
      simp only [countsGet]
      by_cases hk : k = p
      · rw [if_pos (he.trans hk), if_pos hk]
      · rw [if_neg (fun hh : e.1 = p => hk (he.symm.trans hh)), if_neg hk,
          if_neg (fun hh : e.1 = p => hk (he.symm.trans hh))]
    · rw [if_neg he]
      simp only [countsGet, ih]
      by_cases hkp : k = p <;> by_cases hep : e.1 = p
      · exact absurd (hep.trans hkp.symm) he
      · rw [if_neg hep, if_pos hkp, if_pos hkp]
      · rw [if_pos hep, if_neg hkp, if_pos hep]
      · rw [if_neg hep, if_neg hkp, if_neg hkp, if_neg hep]

theorem countsTotalW_cons (e : Int × (ℚ × Nat)) (l : Counts) :
    countsTotalW (e :: l) = e.2.1 + countsTotalW l := by
  simp [countsTotalW]

theorem countsTotalR_cons (e : Int × (ℚ × Nat)) (l : Counts) :
    countsTotalR (e :: l) = e.2.2 + countsTotalR l := by
  simp [countsTotalR]

theorem countsTotalW_set_add (c : Counts) (k : Int) (w : ℚ) (n : Nat) :
    countsTotalW (countsSet c k ((countsGet c k).1 + w, (countsGet c k).2 + n)) =
      countsTotalW c + w := by
  induction c with
  | nil => simp [countsSet, countsGet, countsTotalW]
  | cons e rest ih =>
    by_cases he : e.1 = k
    · simp only [countsSet, countsGet, if_pos he, countsTotalW_cons]
      ring
    · simp only [countsSet, countsGet, if_neg he, countsTotalW_cons, ih]
      ring

theorem countsTotalR_set_add (c : Counts) (k : Int) (w : ℚ) (n : Nat) :
    countsTotalR (countsSet c k ((countsGet c k).1 + w, (countsGet c k).2 + n)) =
      countsTotalR c + n := by
  induction c with
  | nil => simp [countsSet, countsGet, countsTotalR]
  | cons e rest ih =>
    by_cases he : e.1 = k
    · simp only [countsSet, countsGet, if_pos he, countsTotalR_cons]
      omega
    · simp only [countsSet, countsGet, if_neg he, countsTotalR_cons, ih]
      omega

theorem collapseHit_totalW (xp : Int) (gi multimax slen : Nat) (c : Counts) (h : Hit) :
    countsTotalW (collapseHit xp gi multimax slen c h) =
      countsTotalW c + (if h.num_mapped ≤ multimax then
        (h.read_len : ℚ) / ((h.num_mapped : ℚ) * (slen : ℚ)) else 0) := by
  by_cases hm : multimax < h.num_mapped
  · rw [if_neg (by omega : ¬ h.num_mapped ≤ multimax), add_zero]
    unfold collapseHit
    rw [if_pos hm]
  · rw [if_pos (by omega : h.num_mapped ≤ multimax)]
    unfold collapseHit
    rw [if_neg hm]
    exact countsTotalW_set_add c _ _ 1

theorem collapseHit_totalR (xp : Int) (gi multimax slen : Nat) (c : Counts) (h : Hit) :
    countsTotalR (collapseHit xp gi multimax slen c h) =
      countsTotalR c + (if h.num_mapped ≤ multimax then 1 else 0) := by
  by_cases hm : multimax < h.num_mapped
  · rw [if_neg (by omega : ¬ h.num_mapped ≤ multimax), add_zero]
    unfold collapseHit
    rw [if_pos hm]
  · rw [if_pos (by omega : h.num_mapped ≤ multimax)]
    unfold collapseHit
    rw [if_neg hm]
    exact countsTotalR_set_add c _ _ 1

theorem collapseFoldW (xp : Int) (gi multimax slen : Nat) :
    ∀ (l : List Hit) (c : Counts),
      countsTotalW (l.foldl (collapseHit xp gi multimax slen) c) =
        countsTotalW c + ((l.filter fun i => decide (i.num_mapped ≤ multimax)).map fun h =>
          (h.read_len : ℚ) / ((h.num_mapped : ℚ) * (slen : ℚ))).sum := by
  intro l
  induction l with
  | nil =>
    intro c
    simp
  | cons h rest ih =>
    intro c
    simp only [List.foldl_cons]
    rw [ih (collapseHit xp gi multimax slen c h), collapseHit_totalW]
    by_cases hm : h.num_mapped ≤ multimax
    · have hd : decide (h.num_mapped ≤ multimax) = true := decide_eq_true hm
      rw [if_pos hm]
      simp only [List.filter_cons, hd, if_true, List.map_cons, List.sum_cons]
      ring
    · have hd : decide (h.num_mapped ≤ multimax) = false := decide_eq_false hm
      rw [if_neg hm, add_zero]
      simp only [List.filter_cons, hd, Bool.false_eq_true, if_false]

theorem collapseFoldR (xp : Int) (gi multimax slen : Nat) :
    ∀ (l : List Hit) (c : Counts),
      countsTotalR (l.foldl (collapseHit xp gi multimax slen) c) =
        countsTotalR c + (l.filter fun i => decide (i.num_mapped ≤ multimax)).length := by
  intro l
  induction l with
  | nil =>
    intro c
    simp
  | cons h rest ih =>
    intro c
    simp only [List.foldl_cons]
    rw [ih (collapseHit xp gi multimax slen c h), collapseHit_totalR]
    by_cases hm : h.num_mapped ≤ multimax
    · have hd : decide (h.num_mapped ≤ multimax) = true := decide_eq_true hm
      rw [if_pos hm]
      simp only [List.filter_cons, hd, if_true, List.length_cons]
      omega
    · have hd : decide (h.num_mapped ≤ multimax) = false := decide_eq_false hm
      rw [if_neg hm, add_zero]
      simp only [List.filter_cons, hd, Bool.false_eq_true, if_false]

theorem collapseGroup_totalW (xp : Int) (gi multimax : Nat) (c : Counts) (grp : List Hit) :
    countsTotalW (collapseGroup xp gi multimax c grp) = countsTotalW c + Wsum grp multimax :=
  collapseFoldW xp gi multimax (sum_len_per_barcode grp multimax) grp c

theorem collapseGroup_totalR (xp : Int) (gi multimax : Nat) (c : Counts) (grp : List Hit) :
    countsTotalR (collapseGroup xp gi multimax c grp) =
      countsTotalR c + (eligibleHits grp multimax).length :=
  collapseFoldR xp gi multimax (sum_len_per_barcode grp multimax) grp c

theorem Wsum_eq_one (grp : List Hit) (multimax : Nat)
    (hnm : ∀ h ∈ grp, h.num_mapped ≤ multimax → h.num_mapped = 1)
    (hlen : ∀ h ∈ grp, 1 ≤ h.read_len) (hne : eligibleHits grp multimax ≠ []) :
    Wsum grp multimax = 1 := by
  have hS1 : 1 ≤ sum_len_per_barcode grp multimax := by
    obtain ⟨h, hh⟩ := List.exists_mem_of_ne_nil _ hne
    have hmem : h.read_len ∈ (eligibleHits grp multimax).map Hit.read_len :=
      List.mem_map_of_mem _ hh
    have hl : 1 ≤ h.read_len := hlen h (List.mem_filter.mp hh).1
    have hle := List.le_sum_of_mem hmem
    unfold sum_len_per_barcode
    omega
  have hS0 : ((sum_len_per_barcode grp multimax : ℚ)) ≠ 0 :=
    Nat.cast_ne_zero.mpr (by omega)
  unfold Wsum
  have hmapeq : ((eligibleHits grp multimax).map fun h =>
      (h.read_len : ℚ) / ((h.num_mapped : ℚ) * (sum_len_per_barcode grp multimax : ℚ))).sum =
      ((eligibleHits grp multimax).map fun h =>
      (h.read_len : ℚ) * (sum_len_per_barcode grp multimax : ℚ)⁻¹).sum := by
    congr 1
    apply List.map_congr_left
    intro h hh
    have h1 : h.num_mapped = 1 :=
      hnm h (List.mem_filter.mp hh).1 (of_decide_eq_true (List.mem_filter.mp hh).2)
    rw [h1]
    push_cast
    rw [one_mul, div_eq_mul_inv]
  rw [hmapeq, List.sum_map_mul_right]
  have hcast : ((eligibleHits grp multimax).map fun h => (h.read_len : ℚ)).sum =
      (sum_len_per_barcode grp multimax : ℚ) := by
    unfold sum_len_per_barcode
    rw [Nat.cast_list_sum, List.map_map]
    rfl
  rw [hcast, mul_inv_cancel₀ hS0]

/-- C1 (amended): within one second-start sub-group, when every eligible hit
is uniquely mapped (`num_mapped = 1`, as is always the case for the unique
table `multimax = 1` given the data-model invariant `num_mapped >= 1`) and
read lengths are positive, `_collapse` adds a total cDNA weight of exactly 1
if at least one eligible hit exists and 0 otherwise, and adds one read count
per eligible hit.  (For eligible hits with `num_mapped > 1` the weight sum
is below 1 -- see the counterexample.) -/
theorem collapse_subgroup_sums (xp : Int) (gi multimax : Nat) (c : Counts) (grp : List Hit)
    (hnm : ∀ h ∈ grp, h.num_mapped ≤ multimax → h.num_mapped = 1)
    (hlen : ∀ h ∈ grp, 1 ≤ h.read_len) :
    countsTotalW (collapseGroup xp gi multimax c grp) =
      countsTotalW c + (if eligibleHits grp multimax = [] then 0 else 1) ∧
    countsTotalR (collapseGroup xp gi multimax c grp) =
      countsTotalR c + (eligibleHits grp multimax).length := by
  refine ⟨?_, collapseGroup_totalR xp gi multimax c grp⟩
  rw [collapseGroup_totalW]
  congr 1
  by_cases he : eligibleHits grp multimax = []
  · rw [if_pos he]
    unfold Wsum
    rw [he]
    simp
  · rw [if_neg he, Wsum_eq_one grp multimax hnm hlen he]

theorem collapse_subgroup_sums_witness :
    countsTotalW (collapseGroup 5 0 1 [] [hitU2, hitU3]) = 1 ∧
    countsTotalR (collapseGroup 5 0 1 [] [hitU2, hitU3]) = 2 := by
  obtain ⟨hw, hr⟩ := collapse_subgroup_sums 5 0 1 [] [hitU2, hitU3] (by decide) (by decide)
  constructor
  · rw [hw, if_neg (show ¬ eligibleHits [hitU2, hitU3] 1 = [] by decide)]
    norm_num [countsTotalW]
  · rw [hr]
    norm_num [eligibleHits, hitU2, hitU3, countsTotalR]

/-- C1 counterexample: a sub-group consisting of one eligible hit with
`num_mapped = 2` (read length 1, `multimax = 2`) gets total cDNA weight
1/2, not 1, so the claimed sum of exactly 1 fails for multimapped hits. -/
theorem collapse_weight_sum_counterexample :
    _collapse 5 [(['A', 'A'], [hitCE])] "start" 2 = [(5, (1/2, 1))] ∧
    hitCE.num_mapped ≤ 2 ∧
    countsTotalW (_collapse 5 [(['A', 'A'], [hitCE])] "start" 2) ≠ 1 := by
  have hc : _collapse 5 [(['A', 'A'], [hitCE])] "start" 2 = [(5, (1/2, 1))] := by
    simp [_collapse, collapseGroup, collapseHit, ssGroups, appendHit, sum_len_per_barcode,
      eligibleHits, countsGet, countsSet, pyIndexStr, hitCE]
  refine ⟨hc, by decide, ?_⟩
  rw [hc]
  norm_num [countsTotalW]

/-- C10 counterexample: the claim bounds only the read lengths, but a hit
with `num_mapped = 0` is eligible for any `multimax` and its weight
denominator `num_mapped * sum_len_per_barcode` is 0 even though every read
length in the group is at least 1, so "the denominator is at least
read_len >= 1" fails without the `num_mapped >= 1` invariant. -/
theorem collapse_denominator_counterexample :
    hitNm0 ∈ [hitNm0] ∧ (∀ h ∈ [hitNm0], 1 ≤ h.read_len) ∧ hitNm0.num_mapped ≤ 1 ∧
    (hitNm0.num_mapped : ℚ) * (sum_len_per_barcode [hitNm0] 1 : ℚ) = 0 := by
  refine ⟨by decide, by decide, by decide, ?_⟩
  norm_num [hitNm0]

/-- C10 (amended): if additionally every hit has `num_mapped >= 1` (the
data-model invariant), then for every eligible hit the read length is
included in `sum_len_per_barcode`, the weight denominator is nonzero, and
hits with `num_mapped > multimax` are skipped before any division. -/
theorem collapse_no_div_by_zero (grp : List Hit) (multimax : Nat) (h : Hit)
    (hlen : ∀ h' ∈ grp, 1 ≤ h'.read_len) (hnm1 : ∀ h' ∈ grp, 1 ≤ h'.num_mapped)
    (hmem : h ∈ grp) (helig : h.num_mapped ≤ multimax) :
    h.read_len ≤ sum_len_per_barcode grp multimax ∧
    (h.num_mapped : ℚ) * (sum_len_per_barcode grp multimax : ℚ) ≠ 0 ∧
    ∀ (xp : Int) (gi slen : Nat) (c : Counts) (h' : Hit),
      multimax < h'.num_mapped → collapseHit xp gi multimax slen c h' = c := by
  have hin : h ∈ eligibleHits grp multimax :=
    List.mem_filter.mpr ⟨hmem, decide_eq_true helig⟩
  have hmm : h.read_len ∈ (eligibleHits grp multimax).map Hit.read_len :=
    List.mem_map_of_mem _ hin
  have hgl := List.le_sum_of_mem hmm
  have hl1 := hlen h hmem
  refine ⟨hgl, ?_, ?_⟩
  · apply mul_ne_zero
    · exact Nat.cast_ne_zero.mpr (by have := hnm1 h hmem; omega)
    · exact Nat.cast_ne_zero.mpr (by unfold sum_len_per_barcode; omega)
  · intro xp gi slen c h' hgt
    unfold collapseHit
    rw [if_pos hgt]

theorem collapse_no_div_by_zero_witness :
    hitU2.read_len ≤ sum_len_per_barcode [hitU2] 1 ∧
    (hitU2.num_mapped : ℚ) * (sum_len_per_barcode [hitU2] 1 : ℚ) ≠ 0 ∧
    collapseHit 0 0 1 5 [] hitCE = [] := by
  obtain ⟨h1, h2, h3⟩ := collapse_no_div_by_zero [hitU2] 1 hitU2 (by decide) (by decide)
    (by decide) (by decide)
  exact ⟨h1, h2, h3 0 0 5 [] hitCE (by decide)⟩
theorem sumAt_cons (pv : Int × (ℚ × Nat)) (l : Counts) (p : Int) :
    sumAt (pv :: l) p = if pv.1 = p then
      (pv.2.1 + (sumAt l p).1, pv.2.2 + (sumAt l p).2) else sumAt l p := rfl

theorem pairSum_cons (x : ℚ × Nat) (l : List (ℚ × Nat)) :
    pairSum (x :: l) = (x.1 + (pairSum l).1, x.2 + (pairSum l).2) := rfl

theorem countsGet_update (to_add : Counts) :
    ∀ (cur : Counts) (p : Int),
      countsGet (_update cur to_add) p =
        ((countsGet cur p).1 + (sumAt to_add p).1, (countsGet cur p).2 + (sumAt to_add p).2) := by
  induction to_add with
  | nil =>
    intro cur p
    simp [_update, sumAt]
  | cons pv rest ih =>
    intro cur p
    rw [show _update cur (pv :: rest) = _update (countsSet cur pv.1
      ((countsGet cur pv.1).1 + pv.2.1, (countsGet cur pv.1).2 + pv.2.2)) rest from rfl]
    rw [ih, countsGet_countsSet, sumAt_cons]
    by_cases hp : pv.1 = p
    · rw [if_pos hp, if_pos hp, hp, Prod.ext_iff]
      constructor
      · simp only []
        ring
      · simp only []
        omega
    · rw [if_neg hp, if_neg hp]

theorem bucketFold_get (group_by : String) (mismatches multimax : Nat) :
    ∀ (l : List (Int × BcMap)) (acc : Counts × Counts) (p : Int),
      countsGet (l.foldl (fun acc e =>
          (_update acc.1 (_collapse e.1 (_merge_similar_randomers e.2 mismatches) group_by 1),
           _update acc.2 (_collapse e.1 (_merge_similar_randomers e.2 mismatches) group_by multimax)))
        acc).1 p =
        ((countsGet acc.1 p).1 + (pairSum (l.map fun e =>
            sumAt (_collapse e.1 (_merge_similar_randomers e.2 mismatches) group_by 1) p)).1,
         (countsGet acc.1 p).2 + (pairSum (l.map fun e =>
            sumAt (_collapse e.1 (_merge_similar_randomers e.2 mismatches) group_by 1) p)).2) ∧
      countsGet (l.foldl (fun acc e =>
          (_update acc.1 (_collapse e.1 (_merge_similar_randomers e.2 mismatches) group_by 1),
           _update acc.2 (_collapse e.1 (_merge_similar_randomers e.2 mismatches) group_by multimax)))
        acc).2 p =
        ((countsGet acc.2 p).1 + (pairSum (l.map fun e =>
            sumAt (_collapse e.1 (_merge_similar_randomers e.2 mismatches) group_by multimax) p)).1,
         (countsGet acc.2 p).2 + (pairSum (l.map fun e =>
            sumAt (_collapse e.1 (_merge_similar_randomers e.2 mismatches) group_by multimax) p)).2) := by
  intro l
  induction l with
  | nil =>
    intro acc p
    constructor <;> simp [pairSum, sumAt]
  | cons e rest ih =>
    intro acc p
    simp only [List.foldl_cons, List.map_cons, pairSum_cons]
    obtain ⟨ih1, ih2⟩ := ih (_update acc.1 (_collapse e.1 (_merge_similar_randomers e.2 mismatches) group_by 1),
      _update acc.2 (_collapse e.1 (_merge_similar_randomers e.2 mismatches) group_by multimax)) p
    constructor
    · rw [ih1]
      simp only [countsGet_update]
      rw [Prod.ext_iff]
      constructor
      · simp only []
        ring
      · simp only []
        omega
    · rw [ih2]
      simp only [countsGet_update]
      rw [Prod.ext_iff]
      constructor
      · simp only []
        ring
      · simp only []
        omega

theorem detectFold_eq (group_by : String) (mismatches multimax : Nat) :
    ∀ (l : List ((String × String) × List (Int × BcMap))) (acc : SiteTables × SiteTables),
      l.foldl (fun acc e =>
          (acc.1 ++ [(e.1, (bucketTables e.2 group_by mismatches multimax).1)],
           acc.2 ++ [(e.1, (bucketTables e.2 group_by mismatches multimax).2)])) acc =
        (acc.1 ++ l.map fun e => (e.1, (bucketTables e.2 group_by mismatches multimax).1),
         acc.2 ++ l.map fun e => (e.1, (bucketTables e.2 group_by mismatches multimax).2)) := by
  intro l
  induction l with
  | nil =>
    intro acc
    simp
  | cons e rest ih =>
    intro acc
    simp only [List.foldl_cons, List.map_cons]
    rw [ih]
    simp

/-- C6: the cross-link detection loop of `run` processes each
(chromosome, strand) bucket into a pair of tables, and within one bucket the
unique table is the pointwise (cDNA weight, read count) sum, over the
cross-link positions, of `_collapse` applied with `multimax = 1` to the
merged barcode group, while the inclusive table is the same sum with the
configured `multimax` -- both collapses acting on the output of a single
`_merge_similar_randomers` application for that position. -/
theorem run_detect_structure (grouped : List ((String × String) × List (Int × BcMap)))
    (group_by : String) (mismatches multimax : Nat) :
    detect grouped group_by mismatches multimax =
      (grouped.map fun e => (e.1, (bucketTables e.2 group_by mismatches multimax).1),
       grouped.map fun e => (e.1, (bucketTables e.2 group_by mismatches multimax).2)) ∧
    ∀ (by_pos : List (Int × BcMap)) (p : Int),
      countsGet (bucketTables by_pos group_by mismatches multimax).1 p =
        pairSum (by_pos.map fun e =>
          sumAt (_collapse e.1 (_merge_similar_randomers e.2 mismatches) group_by 1) p) ∧
      countsGet (bucketTables by_pos group_by mismatches multimax).2 p =
        pairSum (by_pos.map fun e =>
          sumAt (_collapse e.1 (_merge_similar_randomers e.2 mismatches) group_by multimax) p) := by
  constructor
  · unfold detect
    rw [detectFold_eq]
    simp
  · intro by_pos p
    obtain ⟨h1, h2⟩ := bucketFold_get group_by mismatches multimax by_pos ([], []) p
    unfold bucketTables
    constructor
    · rw [h1]
      simp [countsGet]
    · rw [h2]
      simp [countsGet]
theorem countP_zip_eq_range (l1 : List Char) :
    ∀ l2 : List Char,
      ((l1.zip l2).countP fun p => nmatch p.1 p.2) =
        (List.range (min l1.length l2.length)).countP fun i =>
          nmatch (l1.getD i 'A') (l2.getD i 'A') := by
  induction l1 with
  | nil =>
    intro l2
    simp
  | cons c rest ih =>
    intro l2
    cases l2 with
    | nil => simp
    | cons c2 rest2 =>
      simp only [List.zip_cons_cons, List.countP_cons, List.length_cons]
      rw [ih rest2]
      have hmin : min (rest.length + 1) (rest2.length + 1) = min rest.length rest2.length + 1 := by
        omega
      rw [hmin, List.range_succ_eq_map]
      simp only [List.countP_cons, List.countP_map]
      congr 1

/-- C2: `_match(s1, s2, m)` succeeds exactly when the length-penalised
mismatch count -- the longer length minus the number of positions below the
shorter length whose uppercased characters agree or where either is the
wildcard 'N' -- is at most `m`; and the three quoted examples hold. -/
theorem match_count_characterisation :
    (∀ (s1 s2 : Bc) (mismatches : Nat),
      (_match s1 s2 mismatches = true ↔
        max s1.length s2.length - countMatchPos s1 s2 ≤ mismatches)) ∧
    _match ['A', 'A', 'N'] ['A', 'A', 'T'] 0 = true ∧
    _match ['A', 'A', 'A'] ['A', 'A', 'T'] 0 = false ∧
    _match ['A', 'A', 'A'] ['A', 'A', 'T'] 1 = true := by
  refine ⟨?_, by decide, by decide, by decide⟩
  intro s1 s2 mismatches
  have hb := countP_zip_eq_range (pyUpper s1) (pyUpper s2)
  unfold _match
  simp only [decide_eq_true_eq]
  rw [hb]
  unfold countMatchPos pyUpper
  simp only [List.length_map]

/-- C4: the code contradicts its own documented behaviour ("if read is not
split, second_start equals 0"): for the contiguous read covering positions
10 and 11 on the plus strand (all inter-position gaps are zero), processed
with an annotation containing a segment that starts at 11, `_second_start`
returns 11 instead of 0. -/
theorem second_start_contiguous_annot_bug :
    holesOf [10, 11] = [0] ∧
    _second_start [10, 11] "+" "chr1" (some annotC4) 4 = some (11, false) ∧
    (11 : Int) ≠ 0 := by
  refine ⟨by decide, by decide, by decide⟩

theorem getLastD_eq_getLast : ∀ (l : List Int) (d : Int) (h : l ≠ []), l.getLastD d = l.getLast h
  | [_], _, _ => rfl
  | a :: b :: r, d, h => by
    rw [show (a :: b :: r).getLastD d = (b :: r).getLastD a from rfl]
    rw [List.getLast_cons (by simp)]
    exact getLastD_eq_getLast (b :: r) a (by simp)

/-- C5: for a nonempty sorted position list, the plus strand gets cross-link
`poss[0] - 1` and end `poss[-1]`, the minus strand gets cross-link
`poss[-1] + 1` and end `poss[0]`, and the middle position is the entry at
index `n / 2`, except at index `n / 2 - 1` on the minus strand when `n` is
even. -/
theorem read_positions_characterisation (poss : List Int) (h : poss ≠ []) :
    xlinkPos poss false = poss.head h - 1 ∧
    endPos poss false = poss.getLast h ∧
    xlinkPos poss true = poss.getLast h + 1 ∧
    endPos poss true = poss.head h ∧
    middlePos poss "+" = poss.getD (poss.length / 2) 0 ∧
    (poss.length % 2 = 1 → middlePos poss "-" = poss.getD (poss.length / 2) 0) ∧
    (poss.length % 2 = 0 → middlePos poss "-" = poss.getD (poss.length / 2 - 1) 0) := by
  obtain ⟨a, rest, rfl⟩ := List.exists_cons_of_ne_nil h
  refine ⟨?_, ?_, ?_, ?_, ?_, ?_, ?_⟩
  · rfl
  · exact congrArg (fun x => x) (getLastD_eq_getLast (a :: rest) 0 h)
  · rw [show xlinkPos (a :: rest) true = (a :: rest).getLastD 0 + 1 from rfl,
      getLastD_eq_getLast (a :: rest) 0 h]
  · rfl
  · by_cases h2 : (a :: rest).length % 2 = 0 <;> simp [middlePos, middleIdx, h2]
  · intro hodd
    have h2 : ¬ (rest.length + 1) % 2 = 0 := by
      simp only [List.length_cons] at hodd
      omega
    simp [middlePos, middleIdx, h2]
  · intro heven
    have h2 : (rest.length + 1) % 2 = 0 := by
      simp only [List.length_cons] at heven
      omega
    simp [middlePos, middleIdx, h2]

theorem read_positions_witness :
    xlinkPos [3, 7] false = 2 ∧ endPos [3, 7] false = 7 ∧ xlinkPos [3, 7] true = 8 ∧
    endPos [3, 7] true = 3 ∧ middlePos [3, 7] "+" = 7 ∧ middlePos [3, 7] "-" = 3 := by
  obtain ⟨h1, h2, h3, h4, h5, _, h7⟩ :=
    read_positions_characterisation [3, 7] (by decide)
  refine ⟨?_, ?_, ?_, ?_, ?_, ?_⟩
  · rw [h1]; rfl
  · rw [h2]; rfl
  · rw [h3]; rfl
  · rw [h4]; rfl
  · rw [h5]; rfl
  · rw [h7 (by decide)]; rfl

/-- C8: without an annotation collaborator `_second_start` never raises,
always returns second-start 0 (so the read is quantified as unspanned), and
flags the read as strange exactly when its largest internal gap exceeds the
hole-size threshold. -/
theorem second_start_annot_absent (poss : List Int) (strand chrom : String)
    (holesize_th : Int) :
    _second_start poss strand chrom none holesize_th =
      some (0, decide (pyMaxInt (holesOf poss) > holesize_th)) := by
  unfold _second_start
  by_cases hh : holesOf poss = [] <;> simp [hh, pyMaxInt]
theorem contains_valid_iff (c : Char) :
    VALID_NUCLEOTIDES.contains c = true ↔ c ∈ VALID_NUCLEOTIDES := List.elem_iff

/-- C7 counterexample: for the read name "x:a" the fallback token "a" has
all its characters in the case-insensitive nucleotide alphabet, yet the
code rejects it (its alphabet check is case-sensitive), returning the empty
barcode and bumping the invalid-randomer counter instead of accepting "a". -/
theorem barcode_case_counterexample :
    _get_random_barcode ['x', ':', 'a'] m0 = ([], m0.incInvalid) ∧
    (∀ c ∈ ['a'], c.toUpper ∈ VALID_NUCLEOTIDES) ∧
    ([] : Bc) ≠ ['a'] := by
  refine ⟨by decide, by decide, by decide⟩

/-- C7 (amended): barcode extraction never fails the read: with the
':rbc:' marker present the token after the last marker up to the next ':'
is returned with no counter change and no validity check; otherwise, with a
':' present, the trailing token after the last ':' is returned if all its
characters are in the UPPER-CASE alphabet {A,T,C,G,N} (the check is
case-sensitive, so e.g. lower-case nucleotides are rejected), else the
empty barcode is returned with the invalid-barcode counter bumped; with no
':' at all the empty barcode is returned with the no-barcode counter
bumped. -/
theorem barcode_extraction_cases (query_name : Bc) (metrics : Metrics) :
    (containsSeq rbcMarker query_name = true →
      _get_random_barcode query_name metrics =
        ((afterLast rbcMarker query_name).takeWhile (fun c => !(decide (c = ':'))), metrics)) ∧
    (containsSeq rbcMarker query_name = false → query_name.contains ':' = true →
      ((∀ c ∈ afterLast [':'] query_name, c ∈ VALID_NUCLEOTIDES) →
        _get_random_barcode query_name metrics = (afterLast [':'] query_name, metrics)) ∧
      ((∃ c ∈ afterLast [':'] query_name, ¬ c ∈ VALID_NUCLEOTIDES) →
        _get_random_barcode query_name metrics = ([], metrics.incInvalid))) ∧
    (containsSeq rbcMarker query_name = false → query_name.contains ':' = false →
      _get_random_barcode query_name metrics = ([], metrics.incNor)) := by
  refine ⟨?_, ?_, ?_⟩
  · intro hmark
    unfold _get_random_barcode
    rw [if_pos hmark]
  · intro hmark hcolon
    constructor
    · intro hvalid
      unfold _get_random_barcode
      rw [if_neg (by simp [hmark]), if_pos hcolon, if_neg ?_]
      intro hany
      obtain ⟨c, hc, hpc⟩ := List.any_eq_true.mp hany
      have hmem := hvalid c hc
      rw [← contains_valid_iff] at hmem
      rw [hmem] at hpc
      cases hpc
    · intro hinvalid
      obtain ⟨c, hc, hnv⟩ := hinvalid
      unfold _get_random_barcode
      rw [if_neg (by simp [hmark]), if_pos hcolon, if_pos ?_]
      apply List.any_eq_true.mpr
      have hfc : VALID_NUCLEOTIDES.contains c = false := by
        cases hcc : VALID_NUCLEOTIDES.contains c
        · rfl
        · exact absurd ((contains_valid_iff c).mp hcc) hnv
      exact ⟨c, hc, by rw [hfc]; rfl⟩
  · intro hmark hcolon
    unfold _get_random_barcode
    rw [if_neg (by simp [hmark]), if_neg (by rw [hcolon]; exact Bool.false_ne_true)]

theorem barcode_extraction_witness :
    _get_random_barcode ['a', 'b', ':', 'A', 'C', 'G'] m0 = (['A', 'C', 'G'], m0) := by
  have h := (barcode_extraction_cases ['a', 'b', ':', 'A', 'C', 'G'] m0).2.1
    (by decide) (by decide)
  exact h.1 (by decide)

theorem insertIntAsc_perm (x : Int) (l : List Int) :
    List.Perm (insertIntAsc x l) (x :: l) := by
  induction l with
  | nil => exact List.Perm.refl _
  | cons y rest ih =>
    simp only [insertIntAsc]
    by_cases hc : decide (x ≤ y) = true
    · rw [if_pos hc]
    · rw [if_neg hc]
      exact (List.Perm.cons y ih).trans (List.Perm.swap x y rest)

theorem pySortedInt_perm (l : List Int) : List.Perm (pySortedInt l) l := by
  induction l with
  | nil => exact List.Perm.refl _
  | cons y rest ih =>
    exact (insertIntAsc_perm y (pySortedInt rest)).trans (List.Perm.cons y ih)

theorem pySortedInt_ne_nil {l : List Int} (h : l ≠ []) : pySortedInt l ≠ [] := by
  intro hh
  apply h
  have hlen := (pySortedInt_perm l).length_eq
  rw [hh] at hlen
  exact List.length_eq_zero.mp hlen.symm

/-- C9: evaluating the per-record step at the failing input.  A mapped,
quality-passing record that has the NH tag but covers a single position
aborts the run when an annotation is supplied: `_second_start` calls
`holes.index` on the empty gap list, raising an uncaught `ValueError`.  So
the missing-NH condition is not the only per-record abort.  The same record
processes fine without an annotation. -/
theorem process_record_single_position_bug :
    recC9.nh ≠ none ∧
    processRecord 0 (some annotC4) 4 (m0, [], []) recC9 = none ∧
    (processRecord 0 none 4 (m0, [], []) recC9).isSome = true := by
  refine ⟨by decide, by rfl, by decide⟩

/-- Supporting fact for C9: without an annotation, a record with at least
one covered position aborts processing if and only if it is used (mapped
and of sufficient quality) and its NH tag is missing. -/
theorem process_record_no_annot_abort_iff (mapq_th holesize_th : Int)
    (st : Metrics × Grouped × List BamRec) (r : BamRec) (hpos : r.positions ≠ []) :
    (processRecord mapq_th none holesize_th st r = none ↔
      r.is_unmapped = false ∧ mapq_th ≤ r.mapq ∧ r.nh = none) := by
  unfold processRecord
  by_cases hu : r.is_unmapped = true
  · simp [hu]
  · have hu' : r.is_unmapped = false := Bool.eq_false_iff.mpr hu
    by_cases hq : r.mapq < mapq_th
    · have hle : ¬ mapq_th ≤ r.mapq := by omega
      simp [hu', hq, hle]
    · have hle : mapq_th ≤ r.mapq := by omega
      cases hnh : r.nh with
      | none => simp [hu', hq, hnh, hle]
      | some v =>
        have hne := pySortedInt_ne_nil hpos
        simp [hu', hq, hnh, hne, second_start_annot_absent, hle]
